import Mathlib

/-!
Verification of the Pynance core: the Monte Carlo correlated-GBM simulator
(`montecarlo.py`) and the portfolio risk/return analytics
(`portfolio_analysis.py`).

Embedding conventions:

* Machine floats are modelled by exact field arithmetic; statements that hinge
  on IEEE-754 non-finite values (division by zero in `numpy`) use an explicit
  value type `FloatVal` with `posInf`/`negInf`/`nan` and a division `fdiv`
  reproducing `numpy`'s scalar semantics.
* A price table `price_df` with `k` columns (assets) is a `List (Fin k → ℝ)`
  of rows in date order; a returns table likewise.
* The seeded `np.random.default_rng(seed)` is an external library collaborator;
  it is modelled as a function from the seed to the stream of
  `standard_normal` draws, `Z t j s` being entry `[j, s]` of the assets×sims
  matrix drawn at time step `t`.
* `np.linalg.cholesky` is a library call; it is embedded as the textbook
  lower-triangular Cholesky algorithm (row-by-row), which is the factor that
  routine returns on positive-definite input.
* Fallible code is embedded in `Except`: `simulate_correlated_gbm` itself
  contains no `raise`, but the libraries raise inside it: `price_df.iloc[-1]`
  fails on a rowless table, `np.linalg.cholesky` raises `LinAlgError` when
  the log-return covariance is not factorizable (not positive-definite —
  including the `NaN` covariance `pandas` yields from fewer than two
  log-return rows), `np.tensordot` rejects a weight vector whose length does
  not match the asset count, and `np.percentile` rejects the empty loss
  vector of `n_sims = 0`.  These exits are reproduced in source order.
-/

namespace Pynance

/-- Arithmetic mean of a list as `numpy`/`pandas` compute it (`sum / len`;
for the empty list the division by zero yields the junk value `0`, a case no
claim exercises). -/
def listMean {α : Type} [DivisionRing α] (xs : List α) : α := xs.sum / xs.length

/-- Sample variance with one delta degree of freedom (the `pandas` default
`ddof = 1` used by `Series.std`, `Series.var` and `DataFrame.cov`). -/
def sampleVar {α : Type} [LinearOrderedField α] (xs : List α) : α :=
  (xs.map (fun x => (x - listMean xs) ^ 2)).sum / ((xs.length : α) - 1)

/-- Linear-interpolation percentile, the default method of `np.percentile`:
with the data sorted ascending and `h = (n - 1) * q / 100`, the result is
`a[floor h] + (h - floor h) * (a[ceil h] - a[floor h])`. -/
def percentile {α : Type} [LinearOrderedField α] [FloorRing α]
    (xs : List α) (q : α) : α :=
  let s := xs.insertionSort (· ≤ ·)
  let h : α := ((xs.length : α) - 1) * q / 100
  s.getD (Int.toNat (Int.floor h)) 0 +
    Int.fract h * (s.getD (Int.toNat (Int.ceil h)) 0 - s.getD (Int.toNat (Int.floor h)) 0)

/-- Mean of a column of a table of rows. -/
def colMean {k : ℕ} {α : Type} [LinearOrderedField α]
    (R : List (Fin k → α)) (i : Fin k) : α :=
  listMean (R.map (fun r => r i))

/-- Sample covariance (`DataFrame.cov`, `ddof = 1`) between two columns of a
table of rows. -/
def sampleCov {k : ℕ} {α : Type} [LinearOrderedField α]
    (R : List (Fin k → α)) (i j : Fin k) : α :=
  (R.map (fun r => (r i - colMean R i) * (r j - colMean R j))).sum /
    ((R.length : α) - 1)

/-- Boolean observer for `Except`, distinguishing a returned value from a
raised error. -/
def exceptIsOk {ε β : Type} : Except ε β → Bool
  | .ok _ => true
  | .error _ => false

/-! The Monte Carlo correlated-GBM simulator, `montecarlo.py`. -/

namespace MC

/-- Safe lookup of a matrix entry by natural-number indices (junk `0` out of
range; in-range wherever the source indexes). -/
def entryGet {k : ℕ} (A : Fin k → Fin k → ℝ) (i j : ℕ) : ℝ :=
  if h : i < k ∧ j < k then A ⟨i, h.1⟩ ⟨j, h.2⟩ else 0

/-- Row-by-row lower-triangular Cholesky factorization, the factor
`np.linalg.cholesky` returns on a positive-definite matrix:
`L i i = sqrt (A i i - Σ_{m<i} (L i m)^2)` and, for `j < i`,
`L i j = (A i j - Σ_{m<j} L i m * L j m) / L j j`, with zeros above the
diagonal. -/
noncomputable def cholAux {k : ℕ} (A : Fin k → Fin k → ℝ) : ℕ → ℕ → ℝ
  | i, j =>
    if i < j then 0
    else if i = j then
      Real.sqrt (entryGet A i i - ∑ m ∈ (Finset.range i).attach, (cholAux A i m.1) ^ 2)
    else
      (entryGet A i j - ∑ m ∈ (Finset.range j).attach, cholAux A i m.1 * cholAux A j m.1) /
        cholAux A j j
termination_by i j => i + j
decreasing_by
  all_goals
    first
    | (have hm := m.2; simp only [Finset.mem_range] at hm; omega)
    | omega

/-- The Cholesky factor as a `Fin`-indexed matrix. -/
noncomputable def cholesky {k : ℕ} (A : Fin k → Fin k → ℝ) (i j : Fin k) : ℝ :=
  cholAux A i.1 j.1

/-- Success predicate of `np.linalg.cholesky` (LAPACK `dpotrf`): the
factorization succeeds exactly when every pivot
`A i i - Σ_{m<i} (L i m)^2` is strictly positive, which on a symmetric real
matrix is positive-definiteness; otherwise the routine raises `LinAlgError`.
The `NaN` covariance that `pandas` produces from fewer than two log-return
rows also fails `dpotrf`; in the exact embedding those entries are the junk
value `0`, which this predicate likewise rejects. -/
def cholSuccess {k : ℕ} (A : Fin k → Fin k → ℝ) : Prop :=
  ∀ i : Fin k,
    0 < entryGet A i.1 i.1 -
      ∑ m ∈ (Finset.range i.1).attach, (cholAux A i.1 m.1) ^ 2

/-- Daily logarithmic returns of the price table:
`np.log(price_df / price_df.shift(1)).dropna()`.  Row `t` is
`fun i => log (P (t+1) i / P t i)`; on an all-finite price table `dropna`
removes exactly the first (all-`NaN`) row, which the `zip` with the tail
already drops. -/
noncomputable def logret {k : ℕ} (P : List (Fin k → ℝ)) : List (Fin k → ℝ) :=
  (P.zip P.tail).map (fun pr => fun i => Real.log (pr.2 i / pr.1 i))

/-- Capped drift estimate: `mu = np.minimum(logret.mean().values, 0.0003)`. -/
noncomputable def mu {k : ℕ} (P : List (Fin k → ℝ)) (i : Fin k) : ℝ :=
  min (colMean (logret P) i) (3 / 10000)

/-- Covariance matrix of the daily log returns: `cov = logret.cov().values`. -/
noncomputable def covm {k : ℕ} (P : List (Fin k → ℝ)) (i j : Fin k) : ℝ :=
  sampleCov (logret P) i j

/-- Starting prices: the last observed row, `S0 = price_df.iloc[-1]`. -/
def S0 {k : ℕ} (P : List (Fin k → ℝ)) : Fin k → ℝ :=
  P.getLastD (fun _ => 0)

/-- Itō-adjusted drift: `drift = mu - 0.5 * sigma_sq` with
`sigma_sq = np.diag(cov)`. -/
noncomputable def drift {k : ℕ} (P : List (Fin k → ℝ)) (i : Fin k) : ℝ :=
  mu P i - (1 / 2) * covm P i i

/-- The asset-path tensor `asset_paths[:, t, :]`, indexed as time → asset →
simulation.  Time `0` is the starting price vector with no drift or noise;
step `t+1` applies the GBM update
`asset_paths[:, t+1, :] = asset_paths[:, t, :] * np.exp(drift[:, None] + L @ Z)`
where `Z = noise (t+1)` is the assets×sims matrix of standard-normal draws of
that step. -/
noncomputable def asset_paths {k : ℕ} (P : List (Fin k → ℝ))
    (noise : ℕ → ℕ → ℕ → ℝ) : ℕ → Fin k → ℕ → ℝ
  | 0 => fun i _ => S0 P i
  | t + 1 => fun i s =>
      asset_paths P noise t i s *
        Real.exp (drift P i + ∑ j : Fin k, cholesky (covm P) i j * noise (t + 1) j.1 s)

/-- Portfolio paths, the weighted asset paths:
`portfolio_paths = np.tensordot(asset_paths, weights, axes=(0, 0))`. -/
noncomputable def portfolio_paths {k : ℕ} (P : List (Fin k → ℝ)) (w : List ℝ)
    (noise : ℕ → ℕ → ℕ → ℝ) (t s : ℕ) : ℝ :=
  ∑ i : Fin k, asset_paths P noise t i s * w.getD i.1 0

/-- Terminal log returns of the `N` simulated portfolio paths:
`np.log(terminal_vals / initial_vals)`. -/
noncomputable def terminal_log_returns {k : ℕ} (P : List (Fin k → ℝ)) (w : List ℝ)
    (T N : ℕ) (noise : ℕ → ℕ → ℕ → ℝ) : List ℝ :=
  (List.range N).map (fun s =>
    Real.log (portfolio_paths P w noise T s / portfolio_paths P w noise 0 s))

/-- Terminal simple returns: `terminal_vals / initial_vals - 1`. -/
noncomputable def terminal_returns {k : ℕ} (P : List (Fin k → ℝ)) (w : List ℝ)
    (T N : ℕ) (noise : ℕ → ℕ → ℕ → ℝ) : List ℝ :=
  (List.range N).map (fun s =>
    portfolio_paths P w noise T s / portfolio_paths P w noise 0 s - 1)

/-- The dictionary `simulate_correlated_gbm` returns (the `dates` entry, a
`pd.bdate_range` consumed only by plotting, is omitted). -/
structure SimResult (k : ℕ) where
  asset_paths : ℕ → Fin k → ℕ → ℝ
  portfolio_paths : ℕ → ℕ → ℝ
  terminal_log_returns : List ℝ
  terminal_returns : List ℝ
  var95 : ℝ
  cvar95 : ℝ

/-- Error exits of a `simulate_correlated_gbm` call, all raised by the
libraries inside the call, in source order: `price_df.iloc[-1]` on a rowless
table (line 25), `np.linalg.cholesky` on a non-factorizable covariance
(line 26), `np.tensordot` on a weight vector whose length differs from the
asset count (line 41, after the path loop), and `np.percentile` on the empty
loss vector of `n_sims = 0` (line 52, after `tensordot`). -/
inductive SimError : Type
  | empty_table : SimError
  | cholesky_fail : SimError
  | shape_mismatch : SimError
  | empty_percentile : SimError

/-- The successfully computed simulation result: paths, terminal returns,
`losses = -terminal_log_returns`, `var95 = np.percentile(losses, 95)` and
`cvar95 = losses[losses >= var95].mean()`. -/
noncomputable def mkResult {k : ℕ} (P : List (Fin k → ℝ)) (w : List ℝ)
    (T N : ℕ) (noise : ℕ → ℕ → ℕ → ℝ) : SimResult k :=
  let tlr := terminal_log_returns P w T N noise
  let losses := tlr.map (fun x => -x)
  let v := percentile losses 95
  { asset_paths := asset_paths P noise
    portfolio_paths := portfolio_paths P w noise
    terminal_log_returns := tlr
    terminal_returns := terminal_returns P w T N noise
    var95 := v
    cvar95 := listMean (losses.filter (fun x => v ≤ x)) }

open Classical in
/-- The simulator `simulate_correlated_gbm(price_df, weights, T_days, n_sims,
seed)`, with the seeded generator's draw stream passed as `noise`.  The
function performs no validation of its own; the library error exits are
reproduced in the order the raising calls execute: `iloc[-1]` on a rowless
table, then `np.linalg.cholesky` on a non-factorizable covariance, then
`np.tensordot` on mismatched weights, then `np.percentile` on `n_sims = 0`.
A non-positive horizon triggers none of them. -/
noncomputable def simulate_correlated_gbm {k : ℕ} (P : List (Fin k → ℝ))
    (w : List ℝ) (T N : ℕ) (noise : ℕ → ℕ → ℕ → ℝ) :
    Except SimError (SimResult k) :=
  if P.isEmpty then .error .empty_table
  else if ¬ cholSuccess (covm P) then .error .cholesky_fail
  else if w.length ≠ k then .error .shape_mismatch
  else if N = 0 then .error .empty_percentile
  else .ok (mkResult P w T N noise)

/-- The high-level entry point `run_monte_carlo_simulation(price_df, weights)`:
after reading `years` and `sims` interactively it always calls the simulator
with `T_days = years * 252` and the fixed literal `seed = 42`.  The library
generator is modelled by `rngOf`, mapping a seed (`none` being the unseeded
`default_rng()` mode) to its draw stream; printing and plotting are I/O
collaborators outside the embedding. -/
noncomputable def run_monte_carlo_simulation {k : ℕ}
    (rngOf : Option ℤ → ℕ → ℕ → ℕ → ℝ) (P : List (Fin k → ℝ)) (w : List ℝ)
    (years sims : ℕ) : Except SimError (SimResult k) :=
  simulate_correlated_gbm P w (years * 252) sims (rngOf (some 42))

end MC

/-! The portfolio analytics engine, `portfolio_analysis.py`. -/

namespace PA

/-- Weighted portfolio daily-return series:
`portfolio_returns = returns_df.dot(weights_array)`, where `returns_df` is
the table of per-asset daily percentage returns. -/
def portfolio_returns {k : ℕ} (R : List (Fin k → ℝ)) (w : Fin k → ℝ) : List ℝ :=
  R.map (fun r => ∑ i : Fin k, r i * w i)

/-- Sample standard deviation, `Series.std()` (`ddof = 1`). -/
noncomputable def sampleStd (xs : List ℝ) : ℝ :=
  Real.sqrt (sampleVar xs)

/-- The `'Annualized Volatility'` entry of `analyze_portfolio`:
`portfolio_returns.std() * np.sqrt(252)`. -/
noncomputable def annualized_volatility (xs : List ℝ) : ℝ :=
  sampleStd xs * Real.sqrt 252

/-- `calculate_portfolio_variance(returns_df, weights)`:
`np.dot(weights.T, np.dot(cov_matrix, weights))`. -/
noncomputable def calculate_portfolio_variance {k : ℕ} (R : List (Fin k → ℝ))
    (w : Fin k → ℝ) : ℝ :=
  ∑ i : Fin k, w i * ∑ j : Fin k, sampleCov R i j * w j

/-- `calculate_risk_contributions(returns_df, weights)`: with
`portfolio_vol = sqrt(calculate_portfolio_variance)` and
`marginal = cov_matrix · w`, returns `(weights * marginal) / portfolio_vol`
when the volatility is nonzero and the `np.nan` sentinel (here `none`)
otherwise. -/
noncomputable def calculate_risk_contributions {k : ℕ} (R : List (Fin k → ℝ))
    (w : Fin k → ℝ) : Option (Fin k → ℝ) :=
  if Real.sqrt (calculate_portfolio_variance R w) = 0 then none
  else
    some (fun i =>
      w i * (∑ j : Fin k, sampleCov R i j * w j) /
        Real.sqrt (calculate_portfolio_variance R w))

/-- Value of a `numpy` float64 scalar: either a finite value (modelled
exactly) or one of the non-finite sentinels `inf`, `-inf`, `nan`. -/
inductive FloatVal : Type
  | fin : ℝ → FloatVal
  | posInf : FloatVal
  | negInf : FloatVal
  | nan : FloatVal

/-- Whether a `numpy` scalar value is finite. -/
def FloatVal.isFinite : FloatVal → Bool
  | .fin _ => true
  | _ => false

/-- Division of `numpy` float64 scalars with a finite numerator: dividing by
zero emits a warning and yields `inf`, `-inf` or `nan` according to the sign
of the numerator; it never raises. -/
noncomputable def fdiv (a b : ℝ) : FloatVal :=
  if b = 0 then
    if 0 < a then .posInf else if a < 0 then .negInf else .nan
  else .fin (a / b)

/-- The `'Sharpe Ratio'` entry of `analyze_portfolio`:
`(portfolio_returns.mean() * 252 - risk_free_rate) /
(portfolio_returns.std() * np.sqrt(252))`, evaluated with `numpy` scalar
division. -/
noncomputable def sharpe (xs : List ℝ) (rf : ℝ) : FloatVal :=
  fdiv (listMean xs * 252 - rf) (sampleStd xs * Real.sqrt 252)

/-- Cumulative value series `(1 + returns).cumprod()`, written with an
explicit accumulator: entry `t` is the product of `1 + r` over the first
`t + 1` returns. -/
def cumFrom {α : Type} [LinearOrderedField α] (acc : α) : List α → List α
  | [] => []
  | r :: rs => acc * (1 + r) :: cumFrom (acc * (1 + r)) rs

/-- The cumulative value series of `calculate_max_drawdown`:
`cumulative = (1 + returns).cumprod()`. -/
def cumulative {α : Type} [LinearOrderedField α] (rets : List α) : List α :=
  cumFrom 1 rets

/-- Running maximum continuing from a prior maximum `m`. -/
def runningMaxFrom {α : Type} [LinearOrder α] (m : α) : List α → List α
  | [] => []
  | x :: xs => max m x :: runningMaxFrom (max m x) xs

/-- Running maximum `cumulative.expanding().max()`: entry `t` is the maximum
of the first `t + 1` entries. -/
def running_max {α : Type} [LinearOrder α] : List α → List α
  | [] => []
  | x :: xs => x :: runningMaxFrom x xs

/-- Drawdown series `(cumulative - running_max) / running_max`. -/
def drawdown {α : Type} [LinearOrderedField α] (rets : List α) : List α :=
  List.zipWith (fun c m => (c - m) / m) (cumulative rets) (running_max (cumulative rets))

/-- Minimum of a list (`Series.min()`), with a junk default for the empty
series (where `pandas` would yield `NaN`; no claim exercises it). -/
def listMinD {α : Type} [LinearOrder α] (d : α) : List α → α
  | [] => d
  | x :: xs => xs.foldl min x

/-- `calculate_max_drawdown(returns)`: the minimum of the drawdown series. -/
def calculate_max_drawdown {α : Type} [LinearOrderedField α] (rets : List α) : α :=
  listMinD 0 (drawdown rets)

end PA

/-! Concrete inputs used by the witnesses. -/

/-- Concrete one-asset, two-row price table. -/
def priceW : List (Fin 1 → ℝ) := [fun _ => 100, fun _ => 101]

/-- Concrete one-asset, three-row price table whose two log returns
`log 2, -log 2` have strictly positive sample variance, so its covariance is
factorizable. -/
def priceW3 : List (Fin 1 → ℝ) := [fun _ => 1, fun _ => 2, fun _ => 1]

/-- Concrete all-zero draw stream standing in for a seeded generator. -/
def noiseW : ℕ → ℕ → ℕ → ℝ := fun _ _ _ => 0

/-- Concrete seed-indexed family of draw streams. -/
def rngW : Option ℤ → ℕ → ℕ → ℕ → ℝ := fun _ _ _ _ => 0

/-- Concrete one-asset daily-return table with returns `-1, 0, 1`. -/
def retW : List (Fin 1 → ℝ) := [fun _ => -1, fun _ => 0, fun _ => 1]

/-- Unit weight on the single asset. -/
def wUnit : Fin 1 → ℝ := fun _ => 1

/-- The risk-contribution vector at `retW`/`wUnit`. -/
def cUnit : Fin 1 → ℝ := fun _ => 1

/-! Helper facts: the success branch of the simulator, and a concrete price
table on which the Cholesky factorization succeeds. -/

/-- A call whose table is non-empty, whose covariance factorizes, whose
weights match and whose simulation count is positive takes the success
branch. -/
theorem simulate_eq_ok {k : ℕ} (P : List (Fin k → ℝ)) (w : List ℝ) (T N : ℕ)
    (noise : ℕ → ℕ → ℕ → ℝ) (hP : P.isEmpty = false)
    (hchol : MC.cholSuccess (MC.covm P)) (hw : w.length = k) (hN : N ≠ 0) :
    MC.simulate_correlated_gbm P w T N noise =
      Except.ok (MC.mkResult P w T N noise) := by
  unfold MC.simulate_correlated_gbm
  rw [hP]
  rw [if_neg (by simp : ¬ (false = true))]
  rw [if_neg (not_not_intro hchol)]
  rw [if_neg (by simp [hw] : ¬ (w.length ≠ k))]
  rw [if_neg hN]

/-- The log returns of the concrete three-row table. -/
theorem logret_priceW3 :
    MC.logret priceW3 = [fun _ => Real.log 2, fun _ => -Real.log 2] := by
  unfold MC.logret priceW3
  simp only [List.tail_cons, List.zip_cons_cons, List.zip_nil_right,
    List.map_cons, List.map_nil]
  congr 1
  · funext i
    norm_num
  · congr 1
    funext i
    rw [show (fun _ : Fin 1 => (1 : ℝ)) i / (fun _ : Fin 1 => (2 : ℝ)) i =
      2⁻¹ by norm_num]
    exact Real.log_inv 2

/-- The concrete 1×1 log-return covariance. -/
theorem covm_priceW3 :
    MC.covm priceW3 (0 : Fin 1) (0 : Fin 1) = 2 * Real.log 2 ^ 2 := by
  unfold MC.covm sampleCov colMean
  rw [logret_priceW3]
  simp [listMean]
  ring

/-- The concrete covariance factorizes: its single pivot is
`2 * (log 2)^2 > 0`. -/
theorem priceW3_chol : MC.cholSuccess (MC.covm priceW3) := by
  intro i
  have hi : i = 0 := Subsingleton.elim i 0
  subst hi
  simp only [Fin.val_zero, Finset.range_zero, Finset.attach_empty,
    Finset.sum_empty, sub_zero]
  have he : MC.entryGet (MC.covm priceW3) 0 0 =
      MC.covm priceW3 (0 : Fin 1) (0 : Fin 1) := by
    simp [MC.entryGet]
  rw [he, covm_priceW3]
  have h2 : 0 < Real.log 2 := Real.log_pos one_lt_two
  nlinarith [h2]

/-! Claims. -/

/-- C1: for every price table with at least 2 rows (and in particular on the
positive-definite-covariance domain where `np.linalg.cholesky` succeeds), a
successful `simulate_correlated_gbm` call builds the asset-path tensor by the
exact GBM recurrence: time 0 is the starting price vector with no drift or
noise, and each step `t` in `1..T` multiplies the previous prices by
`exp (drift + L @ Z t)` with `drift i = mu i - 0.5 * cov i i` and `L` the
lower-triangular Cholesky factor of `cov`. -/
theorem C1_gbm_recurrence {k : ℕ} (P : List (Fin k → ℝ)) (w : List ℝ)
    (T N : ℕ) (noise : ℕ → ℕ → ℕ → ℝ) (r : MC.SimResult k)
    (hP : 2 ≤ P.length)
    (hok : MC.simulate_correlated_gbm P w T N noise = Except.ok r)
    (t : ℕ) (ht1 : 1 ≤ t) (htT : t ≤ T) (i : Fin k) (s : ℕ) :
    r.asset_paths 0 i s = MC.S0 P i ∧
    r.asset_paths t i s =
      r.asset_paths (t - 1) i s *
        Real.exp ((MC.mu P i - (1 / 2) * MC.covm P i i) +
          ∑ j : Fin k, MC.cholesky (MC.covm P) i j * noise t j.1 s) := by
  have hr : r = MC.mkResult P w T N noise := by
    unfold MC.simulate_correlated_gbm at hok
    split at hok
    · cases hok
    · split at hok
      · cases hok
      · split at hok
        · cases hok
        · split at hok
          · cases hok
          · cases hok
            rfl
  subst hr
  obtain ⟨u, rfl⟩ : ∃ u, t = u + 1 := ⟨t - 1, by omega⟩
  exact ⟨rfl, by simp [MC.mkResult, MC.asset_paths, MC.drift]⟩

/-- Witness for C1 at a concrete three-row table with factorizable
covariance, `T = N = 1`, step `t = 1`. -/
theorem C1_gbm_recurrence_witness :
    2 ≤ priceW3.length ∧
    MC.simulate_correlated_gbm priceW3 [1] 1 1 noiseW =
      Except.ok (MC.mkResult priceW3 [1] 1 1 noiseW) ∧
    ((MC.mkResult priceW3 [1] 1 1 noiseW).asset_paths 0 (0 : Fin 1) 0 =
        MC.S0 priceW3 (0 : Fin 1) ∧
      (MC.mkResult priceW3 [1] 1 1 noiseW).asset_paths 1 (0 : Fin 1) 0 =
        (MC.mkResult priceW3 [1] 1 1 noiseW).asset_paths 0 (0 : Fin 1) 0 *
          Real.exp ((MC.mu priceW3 (0 : Fin 1) -
              (1 / 2) * MC.covm priceW3 (0 : Fin 1) (0 : Fin 1)) +
            ∑ j : Fin 1, MC.cholesky (MC.covm priceW3) (0 : Fin 1) j *
              noiseW 1 j.1 0)) :=
  ⟨by norm_num [priceW3],
    simulate_eq_ok priceW3 [1] 1 1 noiseW rfl priceW3_chol rfl one_ne_zero,
    C1_gbm_recurrence priceW3 [1] 1 1 noiseW
      (MC.mkResult priceW3 [1] 1 1 noiseW) (by norm_num [priceW3])
      (simulate_eq_ok priceW3 [1] 1 1 noiseW rfl priceW3_chol rfl one_ne_zero)
      1 le_rfl le_rfl (0 : Fin 1) 0⟩

/-- C2: two `simulate_correlated_gbm` calls with the same (non-`None`) seed
and identical price table, weights, horizon and simulation count return
identical results — in particular identical asset-path tensors, portfolio
paths and `VaR_95`/`CVaR_95` — the seeded generator's stream being the sole
source of randomness in the embedding. -/
theorem C2_determinism {k : ℕ} (rngOf : ℤ → ℕ → ℕ → ℕ → ℝ) (s1 s2 : ℤ)
    (P1 P2 : List (Fin k → ℝ)) (w1 w2 : List ℝ) (T1 T2 N1 N2 : ℕ)
    (hs : s1 = s2) (hP : P1 = P2) (hw : w1 = w2) (hT : T1 = T2)
    (hN : N1 = N2) :
    MC.simulate_correlated_gbm P1 w1 T1 N1 (rngOf s1) =
      MC.simulate_correlated_gbm P2 w2 T2 N2 (rngOf s2) ∧
    Except.map (fun r => MC.SimResult.asset_paths r)
        (MC.simulate_correlated_gbm P1 w1 T1 N1 (rngOf s1)) =
      Except.map (fun r => MC.SimResult.asset_paths r)
        (MC.simulate_correlated_gbm P2 w2 T2 N2 (rngOf s2)) ∧
    Except.map (fun r => MC.SimResult.portfolio_paths r)
        (MC.simulate_correlated_gbm P1 w1 T1 N1 (rngOf s1)) =
      Except.map (fun r => MC.SimResult.portfolio_paths r)
        (MC.simulate_correlated_gbm P2 w2 T2 N2 (rngOf s2)) ∧
    Except.map (fun r => MC.SimResult.var95 r)
        (MC.simulate_correlated_gbm P1 w1 T1 N1 (rngOf s1)) =
      Except.map (fun r => MC.SimResult.var95 r)
        (MC.simulate_correlated_gbm P2 w2 T2 N2 (rngOf s2)) ∧
    Except.map (fun r => MC.SimResult.cvar95 r)
        (MC.simulate_correlated_gbm P1 w1 T1 N1 (rngOf s1)) =
      Except.map (fun r => MC.SimResult.cvar95 r)
        (MC.simulate_correlated_gbm P2 w2 T2 N2 (rngOf s2)) := by
  subst hs hP hw hT hN
  exact ⟨rfl, rfl, rfl, rfl, rfl⟩

/-- Witness for C2 at seed 42 and a concrete table. -/
theorem C2_determinism_witness :
    (42 : ℤ) = 42 ∧
    MC.simulate_correlated_gbm priceW [1] 1 1 (rngW (some 42)) =
      MC.simulate_correlated_gbm priceW [1] 1 1 (rngW (some 42)) :=
  ⟨rfl,
    (C2_determinism (fun s => rngW (some s)) 42 42 priceW priceW [1] [1] 1 1 1 1
      rfl rfl rfl rfl rfl).1⟩

/-- C3: the `VaR_95` a successful simulation returns is the 95th percentile
of the loss vector `losses = -terminal_log_returns`, and the returned
`CVaR_95` is the mean of exactly those losses that are `≥` that threshold. -/
theorem C3_var_cvar {k : ℕ} (P : List (Fin k → ℝ)) (w : List ℝ) (T N : ℕ)
    (noise : ℕ → ℕ → ℕ → ℝ) (r : MC.SimResult k)
    (hok : MC.simulate_correlated_gbm P w T N noise = Except.ok r) :
    r.var95 = percentile (r.terminal_log_returns.map (fun x => -x)) 95 ∧
    r.cvar95 =
      listMean ((r.terminal_log_returns.map (fun x => -x)).filter
        (fun x => r.var95 ≤ x)) := by
  have hr : r = MC.mkResult P w T N noise := by
    unfold MC.simulate_correlated_gbm at hok
    split at hok
    · cases hok
    · split at hok
      · cases hok
      · split at hok
        · cases hok
        · split at hok
          · cases hok
          · cases hok
            rfl
  subst hr
  exact ⟨rfl, rfl⟩

/-- Witness for C3 at a concrete successful simulation. -/
theorem C3_var_cvar_witness :
    MC.simulate_correlated_gbm priceW3 [1] 1 2 noiseW =
      Except.ok (MC.mkResult priceW3 [1] 1 2 noiseW) ∧
    (MC.mkResult priceW3 [1] 1 2 noiseW).var95 =
      percentile
        ((MC.mkResult priceW3 [1] 1 2 noiseW).terminal_log_returns.map
          (fun x => -x)) 95 :=
  ⟨simulate_eq_ok priceW3 [1] 1 2 noiseW rfl priceW3_chol rfl two_ne_zero,
    (C3_var_cvar priceW3 [1] 1 2 noiseW (MC.mkResult priceW3 [1] 1 2 noiseW)
      (simulate_eq_ok priceW3 [1] 1 2 noiseW rfl priceW3_chol rfl
        two_ne_zero)).1⟩

/-- C9: the drift vector the simulator uses is the per-asset mean daily
log-return capped elementwise at the fixed ceiling `0.0003`: each `mu i` is
at most `0.0003`, at most the mean log return, and equal to one of the two;
the Itō adjustment `drift = mu - 0.5 * cov i i` is applied after capping. -/
theorem C9_drift_cap {k : ℕ} (P : List (Fin k → ℝ)) (i : Fin k) :
    MC.mu P i ≤ 3 / 10000 ∧
    MC.mu P i ≤ colMean (MC.logret P) i ∧
    (MC.mu P i = colMean (MC.logret P) i ∨ MC.mu P i = 3 / 10000) ∧
    MC.drift P i = MC.mu P i - (1 / 2) * MC.covm P i i :=
  ⟨min_le_right _ _, min_le_left _ _, min_choice _ _, rfl⟩

/-- C10: the high-level entry point always calls the simulator with the fixed
seed 42 and horizon `years * 252`; its output depends on the generator family
only through the seed-42 stream (so the unseeded mode is unreachable), and in
particular two invocations agreeing on that stream and on all inputs agree. -/
theorem C10_seed42 {k : ℕ} (rngOf rngOf2 : Option ℤ → ℕ → ℕ → ℕ → ℝ)
    (hseed : rngOf (some 42) = rngOf2 (some 42))
    (P : List (Fin k → ℝ)) (w : List ℝ) (years sims : ℕ) :
    MC.run_monte_carlo_simulation rngOf P w years sims =
      MC.simulate_correlated_gbm P w (years * 252) sims (rngOf (some 42)) ∧
    MC.run_monte_carlo_simulation rngOf P w years sims =
      MC.run_monte_carlo_simulation rngOf2 P w years sims := by
  refine ⟨rfl, ?_⟩
  unfold MC.run_monte_carlo_simulation
  rw [hseed]

/-- Witness for C10 at concrete generator families agreeing on seed 42. -/
theorem C10_seed42_witness :
    rngW (some 42) = rngW (some 42) ∧
    MC.run_monte_carlo_simulation rngW priceW [1] 1 1 =
      MC.run_monte_carlo_simulation rngW priceW [1] 1 1 :=
  ⟨rfl, (C10_seed42 rngW rngW rfl priceW [1] 1 1).2⟩

/-- C8 counterexample: a call with a non-positive horizon (`T_days = 0`) but
otherwise valid inputs — a non-empty price table whose log-return covariance
factorizes, matching weights, one simulation — raises no error at all: it
returns a complete result (`exceptIsOk` is `true`), refuting the claim that
a fatal validation error precedes any computation for a non-positive
horizon. -/
theorem C8_counterexample :
    exceptIsOk (MC.simulate_correlated_gbm priceW3 [1] 0 1 noiseW) = true := by
  rw [simulate_eq_ok priceW3 [1] 0 1 noiseW rfl priceW3_chol rfl one_ne_zero]
  rfl

/-- C8 amended: the simulator performs no upfront validation of its own.  A
covariance that does not factorize (not positive-definite, e.g. from fewer
than two log-return rows) aborts the call inside `np.linalg.cholesky`; a
zero simulation count or a mismatched weight-vector length fails with an
error raised by the array library during the computation; but a non-positive
horizon is never validated: a call with `T_days = 0` (or any horizon), a
non-empty table, a factorizable covariance, matching weights and a positive
simulation count raises nothing and returns a complete result. -/
theorem C8_amended {k : ℕ} (P : List (Fin k → ℝ)) (w : List ℝ) (T N : ℕ)
    (noise : ℕ → ℕ → ℕ → ℝ) :
    (¬ MC.cholSuccess (MC.covm P) →
      exceptIsOk (MC.simulate_correlated_gbm P w T N noise) = false) ∧
    (N = 0 ∨ w.length ≠ k →
      exceptIsOk (MC.simulate_correlated_gbm P w T N noise) = false) ∧
    (P.isEmpty = false → MC.cholSuccess (MC.covm P) → w.length = k →
      0 < N →
      exceptIsOk (MC.simulate_correlated_gbm P w T N noise) = true) := by
  refine ⟨?_, ?_, ?_⟩
  · intro h
    unfold MC.simulate_correlated_gbm
    split_ifs <;> simp_all [exceptIsOk]
  · rintro (h | h) <;>
      (unfold MC.simulate_correlated_gbm
       split_ifs <;> simp_all [exceptIsOk])
  · intro hP hchol hw hN
    rw [simulate_eq_ok P w T N noise hP hchol hw (Nat.pos_iff_ne_zero.mp hN)]
    rfl

/-- Witness for C8 amended: zero simulations at a concrete table fail. -/
theorem C8_amended_witness :
    ((0 : ℕ) = 0 ∨ ([(1 : ℝ)] : List ℝ).length ≠ 1) ∧
    exceptIsOk (MC.simulate_correlated_gbm priceW3 [1] 5 0 noiseW) = false :=
  ⟨Or.inl rfl, (C8_amended priceW3 [1] 5 0 noiseW).2.1 (Or.inl rfl)⟩

/-- C5: on a portfolio daily-return series of zero standard deviation the
Sharpe computation divides by zero; with `numpy` float scalars this yields a
non-finite sentinel (`inf`, `-inf` or `nan` according to the excess-return
sign) and raises no exception. -/
theorem C5_sharpe_zero_vol (xs : List ℝ) (rf : ℝ) (h : PA.sampleStd xs = 0) :
    (PA.sharpe xs rf).isFinite = false ∧
    (PA.sharpe xs rf = PA.FloatVal.posInf ∨
      PA.sharpe xs rf = PA.FloatVal.negInf ∨
      PA.sharpe xs rf = PA.FloatVal.nan) := by
  unfold PA.sharpe PA.fdiv
  rw [h, zero_mul]
  rw [if_pos rfl]
  split_ifs <;> simp [PA.FloatVal.isFinite]

/-- Witness for C5: a constant daily-return series (volatility zero). -/
theorem C5_sharpe_zero_vol_witness :
    PA.sampleStd [(1 : ℝ) / 1000, 1 / 1000] = 0 ∧
    (PA.sharpe [(1 : ℝ) / 1000, 1 / 1000] (1 / 50)).isFinite = false := by
  have h : PA.sampleStd [(1 : ℝ) / 1000, 1 / 1000] = 0 := by
    have hv : sampleVar [(1 : ℝ) / 1000, 1 / 1000] = 0 := by
      norm_num [sampleVar, listMean]
    rw [PA.sampleStd, hv, Real.sqrt_zero]
  exact ⟨h, (C5_sharpe_zero_vol [(1 : ℝ) / 1000, 1 / 1000] (1 / 50) h).1⟩

/-! Percentile and tail-mean lemmas used for the CVaR ordering. -/

section PercentileLemmas

variable {α : Type} [LinearOrderedField α] [FloorRing α]

/-- Convexity bound for the linear interpolation step: interpolating between
two entries of a sorted list with a fraction in `[0, 1]` stays at most the
upper entry. -/
theorem interp_le_getD (s : List α) (hs : s.Sorted (· ≤ ·)) (h : α)
    (lo hi : ℕ) (hlh : lo ≤ hi) (hhi : hi < s.length) :
    s.getD lo 0 + Int.fract h * (s.getD hi 0 - s.getD lo 0) ≤ s.getD hi 0 := by
  have hlo : lo < s.length := lt_of_le_of_lt hlh hhi
  have hab : s.getD lo 0 ≤ s.getD hi 0 := by
    rw [List.getD_eq_get _ _ hlo, List.getD_eq_get _ _ hhi]
    exact hs.rel_get_of_le (Fin.mk_le_mk.mpr hlh)
  have hf0 : 0 ≤ Int.fract h := Int.fract_nonneg h
  have hf1 : Int.fract h ≤ 1 := le_of_lt (Int.fract_lt_one h)
  nlinarith [hab, hf0, hf1]

/-- The 95th percentile of a non-empty list never exceeds some member of the
list (the upper interpolation endpoint). -/
theorem exists_mem_ge_percentile95 (xs : List α) (hne : xs ≠ []) :
    ∃ x, x ∈ xs ∧ percentile xs 95 ≤ x := by
  have hn : 0 < xs.length := List.length_pos.mpr hne
  have hlen : (xs.insertionSort (· ≤ ·)).length = xs.length :=
    (List.perm_insertionSort _ xs).length_eq
  have hone : (1 : α) ≤ (xs.length : α) := by exact_mod_cast hn
  have h0 : (0 : α) ≤ ((xs.length : α) - 1) * 95 / 100 := by
    apply div_nonneg _ (by norm_num)
    nlinarith
  have hub : ((xs.length : α) - 1) * 95 / 100 ≤ (xs.length : α) - 1 := by
    rw [div_le_iff (by norm_num : (0 : α) < 100)]
    nlinarith
  have hcl : Int.ceil (((xs.length : α) - 1) * 95 / 100) ≤ (xs.length : ℤ) - 1 := by
    rw [Int.ceil_le]
    push_cast
    exact hub
  have hfl0 : 0 ≤ Int.floor (((xs.length : α) - 1) * 95 / 100) :=
    Int.floor_nonneg.mpr h0
  have hflcl := Int.floor_le_ceil (((xs.length : α) - 1) * 95 / 100)
  have hhi :
      Int.toNat (Int.ceil (((xs.length : α) - 1) * 95 / 100)) <
        (xs.insertionSort (· ≤ ·)).length := by
    rw [hlen]
    omega
  have hlohi :
      Int.toNat (Int.floor (((xs.length : α) - 1) * 95 / 100)) ≤
        Int.toNat (Int.ceil (((xs.length : α) - 1) * 95 / 100)) := by
    omega
  refine ⟨(xs.insertionSort (· ≤ ·)).getD
    (Int.toNat (Int.ceil (((xs.length : α) - 1) * 95 / 100))) 0, ?_, ?_⟩
  · have hm : (xs.insertionSort (· ≤ ·)).getD
        (Int.toNat (Int.ceil (((xs.length : α) - 1) * 95 / 100))) 0 ∈
          xs.insertionSort (· ≤ ·) := by
      rw [List.getD_eq_get _ _ hhi]
      exact List.get_mem _ _ _
    exact (List.perm_insertionSort _ xs).mem_iff.mp hm
  · exact interp_le_getD _ (List.sorted_insertionSort _ xs) _ _ _ hlohi hhi

/-- Lower bound on a list sum from a uniform lower bound on its members. -/
theorem mul_length_le_sum (v : α) (l : List α) (h : ∀ x ∈ l, v ≤ x) :
    v * l.length ≤ l.sum := by
  induction l with
  | nil => simp
  | cons a t ih =>
    have ha := h a (List.mem_cons_self a t)
    have ht := ih (fun x hx => h x (List.mem_cons_of_mem a hx))
    simp only [List.sum_cons, List.length_cons]
    push_cast
    nlinarith [ht, ha]

/-- The mean of a non-empty list all of whose members are at least `v` is at
least `v`. -/
theorem le_listMean_of_forall_le (v : α) (l : List α) (hne : l ≠ [])
    (h : ∀ x ∈ l, v ≤ x) : v ≤ listMean l := by
  have hlen : (0 : α) < l.length := by
    have hp : 0 < l.length := List.length_pos.mpr hne
    exact_mod_cast hp
  rw [listMean, le_div_iff hlen]
  exact mul_length_le_sum v l h

end PercentileLemmas

/-- C6: every successful simulation (which by construction has at least one
terminal loss value) has a non-empty tail set `{loss : loss ≥ VaR_95}`, so
`CVaR_95` is well-defined, and the tail mean dominates the threshold:
`CVaR_95 ≥ VaR_95`. -/
theorem C6_cvar_ge_var {k : ℕ} (P : List (Fin k → ℝ)) (w : List ℝ) (T N : ℕ)
    (noise : ℕ → ℕ → ℕ → ℝ) (r : MC.SimResult k)
    (hok : MC.simulate_correlated_gbm P w T N noise = Except.ok r) :
    (r.terminal_log_returns.map (fun x => -x)).filter
      (fun x => r.var95 ≤ x) ≠ [] ∧
    r.var95 ≤ r.cvar95 := by
  unfold MC.simulate_correlated_gbm at hok
  split at hok
  · cases hok
  · split at hok
    · cases hok
    · split at hok
      · cases hok
      · split at hok
        · cases hok
        · rename_i hN
          cases hok
          simp only [MC.mkResult]
          have hLne :
              (MC.terminal_log_returns P w T N noise).map (fun x => -x) ≠ [] := by
            simp [MC.terminal_log_returns, List.map_eq_nil, List.range_eq_nil, hN]
          obtain ⟨x, hx, hvx⟩ :=
            exists_mem_ge_percentile95
              ((MC.terminal_log_returns P w T N noise).map (fun x => -x)) hLne
          have hmem : x ∈
              ((MC.terminal_log_returns P w T N noise).map (fun x => -x)).filter
                (fun y =>
                  percentile
                    ((MC.terminal_log_returns P w T N noise).map (fun x => -x)) 95
                    ≤ y) := by
            rw [List.mem_filter]
            exact ⟨hx, by simpa using hvx⟩
          refine ⟨List.ne_nil_of_mem hmem, ?_⟩
          apply le_listMean_of_forall_le _ _ (List.ne_nil_of_mem hmem)
          intro y hy
          rw [List.mem_filter] at hy
          simpa using hy.2

/-- Witness for C6 at a concrete successful simulation with two paths. -/
theorem C6_cvar_ge_var_witness :
    MC.simulate_correlated_gbm priceW3 [1] 1 2 noiseW =
      Except.ok (MC.mkResult priceW3 [1] 1 2 noiseW) ∧
    (MC.mkResult priceW3 [1] 1 2 noiseW).var95 ≤
      (MC.mkResult priceW3 [1] 1 2 noiseW).cvar95 :=
  ⟨simulate_eq_ok priceW3 [1] 1 2 noiseW rfl priceW3_chol rfl two_ne_zero,
    (C6_cvar_ge_var priceW3 [1] 1 2 noiseW
      (MC.mkResult priceW3 [1] 1 2 noiseW)
      (simulate_eq_ok priceW3 [1] 1 2 noiseW rfl priceW3_chol rfl
        two_ne_zero)).2⟩

/-! Drawdown lemmas. -/

section DrawdownLemmas

variable {α : Type} [LinearOrderedField α]

/-- Cumulative values stay positive when every return exceeds `-1` and the
accumulator starts positive. -/
theorem cumFrom_pos (rets : List α) :
    ∀ acc : α, 0 < acc → (∀ r ∈ rets, -1 < r) →
      ∀ c ∈ PA.cumFrom acc rets, 0 < c := by
  induction rets with
  | nil =>
    intro acc _ _ c hc
    simp [PA.cumFrom] at hc
  | cons r rs ih =>
    intro acc hacc hr c hc
    have h1r : 0 < 1 + r := by
      have := hr r (List.mem_cons_self r rs)
      linarith
    have hacc2 : 0 < acc * (1 + r) := mul_pos hacc h1r
    simp only [PA.cumFrom, List.mem_cons] at hc
    rcases hc with rfl | hc
    · exact hacc2
    · exact ih (acc * (1 + r)) hacc2
        (fun x hx => hr x (List.mem_cons_of_mem r hx)) c hc

/-- Each drawdown entry along a positive value series is nonpositive. -/
theorem drawdownFrom_nonpos (xs : List α) :
    ∀ m : α, 0 < m → (∀ y ∈ xs, 0 < y) →
      ∀ z ∈ List.zipWith (fun c mx => (c - mx) / mx) xs (PA.runningMaxFrom m xs),
        z ≤ 0 := by
  induction xs with
  | nil => simp
  | cons y ys ih =>
    intro m hm hy z hz
    have hy0 : 0 < y := hy y (List.mem_cons_self y ys)
    have hmax : 0 < max m y := lt_max_of_lt_left hm
    simp only [PA.runningMaxFrom, List.zipWith_cons_cons, List.mem_cons] at hz
    rcases hz with rfl | hz
    · apply div_nonpos_of_nonpos_of_nonneg _ hmax.le
      have := le_max_right m y
      linarith
    · exact ih (max m y) hmax
        (fun x hx => hy x (List.mem_cons_of_mem y hx)) z hz

/-- When the series ascends from the running maximum, the running maximum is
the series itself. -/
theorem runningMaxFrom_of_chain (xs : List α) :
    ∀ m : α, List.Chain (· ≤ ·) m xs → PA.runningMaxFrom m xs = xs := by
  induction xs with
  | nil => intro m _; rfl
  | cons x xs ih =>
    intro m hc
    rcases List.chain_cons.mp hc with ⟨hmx, hc2⟩
    simp only [PA.runningMaxFrom]
    rw [max_eq_right hmx, ih x hc2]

/-- A series whose drawdowns all vanish ascends from the running maximum. -/
theorem chain_of_drawdownFrom_zero (xs : List α) :
    ∀ m : α, 0 < m → (∀ y ∈ xs, 0 < y) →
      (∀ z ∈ List.zipWith (fun c mx => (c - mx) / mx) xs (PA.runningMaxFrom m xs),
        z = 0) →
      List.Chain (· ≤ ·) m xs := by
  induction xs with
  | nil => intro m _ _ _; exact List.Chain.nil
  | cons y ys ih =>
    intro m hm hy hz
    have hy0 : 0 < y := hy y (List.mem_cons_self y ys)
    have hmax : 0 < max m y := lt_max_of_lt_left hm
    have h0 : (y - max m y) / max m y = 0 := by
      apply hz
      simp [PA.runningMaxFrom]
    have hym : y = max m y := by
      have hres := (div_eq_zero_iff.mp h0).resolve_right (ne_of_gt hmax)
      linarith [sub_eq_zero.mp hres]
    have hmy : m ≤ y := hym ▸ le_max_left m y
    refine List.Chain.cons hmy (ih y hy0
      (fun x hx => hy x (List.mem_cons_of_mem y hx)) ?_)
    intro z hzz
    apply hz
    simp only [PA.runningMaxFrom, List.zipWith_cons_cons, List.mem_cons]
    right
    rwa [← hym]

/-- A (left-fold) list minimum bounds every member from below. -/
theorem foldl_min_le (t : List α) :
    ∀ a x : α, x ∈ a :: t → t.foldl min a ≤ x := by
  induction t with
  | nil =>
    intro a x hx
    simp only [List.mem_singleton] at hx
    simp [hx]
  | cons b t ih =>
    intro a x hx
    simp only [List.foldl_cons]
    rcases List.mem_cons.mp hx with rfl | hx2
    · exact le_trans (ih (min x b) (min x b) (List.mem_cons_self _ _))
        (min_le_left x b)
    · rcases List.mem_cons.mp hx2 with rfl | hx3
      · exact le_trans (ih (min a x) (min a x) (List.mem_cons_self _ _))
          (min_le_right a x)
      · exact ih (min a b) x (List.mem_cons_of_mem _ hx3)

/-- The minimum of a list bounds each of its members. -/
theorem listMinD_le_mem (d : α) (l : List α) (x : α) (hx : x ∈ l) :
    PA.listMinD d l ≤ x := by
  match l with
  | a :: t => exact foldl_min_le t a x hx

/-- The (left-fold) minimum of a list is one of its members. -/
theorem foldl_min_mem (t : List α) : ∀ a : α, t.foldl min a ∈ a :: t := by
  induction t with
  | nil => intro a; exact List.mem_cons_self a []
  | cons b t ih =>
    intro a
    simp only [List.foldl_cons]
    rcases min_choice a b with h | h
    · rcases List.mem_cons.mp (ih (min a b)) with h2 | h2
      · rw [h2, h]; exact List.mem_cons_self _ _
      · exact List.mem_cons_of_mem _ (List.mem_cons_of_mem _ h2)
    · rcases List.mem_cons.mp (ih (min a b)) with h2 | h2
      · rw [h2, h]; exact List.mem_cons_of_mem _ (List.mem_cons_self _ _)
      · exact List.mem_cons_of_mem _ (List.mem_cons_of_mem _ h2)

/-- The minimum of a non-empty list is one of its members. -/
theorem listMinD_mem (d : α) (l : List α) (hne : l ≠ []) :
    PA.listMinD d l ∈ l := by
  match l with
  | a :: t => exact foldl_min_mem t a

end DrawdownLemmas

/-- C7 counterexample: for the daily-return series `[-2, 1]` the cumulative
value series is `[-1, -2]`, which is strictly decreasing, yet the computed
max drawdown is `0` — refuting the claimed equivalence between a zero max
drawdown and a monotonically non-decreasing cumulative series. -/
theorem C7_counterexample :
    PA.calculate_max_drawdown ([-2, 1] : List ℚ) = 0 ∧
    ¬ List.Chain' (· ≤ ·) (PA.cumulative ([-2, 1] : List ℚ)) := by
  constructor
  · norm_num [PA.calculate_max_drawdown, PA.drawdown, PA.cumulative, PA.cumFrom,
      PA.running_max, PA.runningMaxFrom, max_def, PA.listMinD, min_def]
  · norm_num [PA.cumulative, PA.cumFrom, List.chain'_cons, List.chain'_singleton]

/-- C7 amended: for every non-empty daily-return series whose returns all
exceed `-1` (so that the cumulative values stay positive), the max drawdown —
the minimum over time of `(cumulative - running_max) / running_max` — is at
most `0`, and it equals `0` exactly when the cumulative value series is
monotonically non-decreasing. -/
theorem C7_amended {α : Type} [LinearOrderedField α] (rets : List α)
    (hne : rets ≠ []) (hr : ∀ r ∈ rets, -1 < r) :
    PA.calculate_max_drawdown rets ≤ 0 ∧
    (PA.calculate_max_drawdown rets = 0 ↔
      List.Chain' (· ≤ ·) (PA.cumulative rets)) := by
  have hcpos : ∀ c ∈ PA.cumulative rets, 0 < c :=
    cumFrom_pos rets 1 one_pos hr
  obtain ⟨x, xs, hx⟩ : ∃ x xs, PA.cumulative rets = x :: xs := by
    cases rets with
    | nil => exact absurd rfl hne
    | cons r rs => exact ⟨_, _, rfl⟩
  have hx0 : 0 < x := hcpos x (hx ▸ List.mem_cons_self x xs)
  have hxs0 : ∀ y ∈ xs, 0 < y :=
    fun y hy => hcpos y (hx ▸ List.mem_cons_of_mem x hy)
  have hdd : PA.drawdown rets =
      (0 : α) :: List.zipWith (fun c mx => (c - mx) / mx) xs
        (PA.runningMaxFrom x xs) := by
    rw [PA.drawdown, hx]
    simp only [PA.running_max, List.zipWith_cons_cons]
    rw [sub_self, zero_div]
  have hdd_nonpos : ∀ z ∈ PA.drawdown rets, z ≤ 0 := by
    intro z hz
    rw [hdd] at hz
    rcases List.mem_cons.mp hz with rfl | hz2
    · exact le_refl 0
    · exact drawdownFrom_nonpos xs x hx0 hxs0 z hz2
  have hmin_le : PA.calculate_max_drawdown rets ≤ 0 := by
    apply listMinD_le_mem
    rw [hdd]
    exact List.mem_cons_self 0 _
  refine ⟨hmin_le, ?_, ?_⟩
  · intro h0
    rw [hx]
    show List.Chain (· ≤ ·) x xs
    apply chain_of_drawdownFrom_zero xs x hx0 hxs0
    intro z hz
    have hz_le : z ≤ 0 := by
      apply hdd_nonpos
      rw [hdd]
      exact List.mem_cons_of_mem 0 hz
    have hz_ge : 0 ≤ z := by
      rw [← h0]
      apply listMinD_le_mem
      rw [hdd]
      exact List.mem_cons_of_mem 0 hz
    linarith
  · intro hchain
    rw [hx] at hchain
    have hchain2 : List.Chain (· ≤ ·) x xs := hchain
    have hrm : PA.runningMaxFrom x xs = xs := runningMaxFrom_of_chain xs x hchain2
    have hall : ∀ z ∈ PA.drawdown rets, z = 0 := by
      intro z hz
      rw [hdd, hrm] at hz
      rcases List.mem_cons.mp hz with rfl | hz2
      · rfl
      · rw [List.zipWith_same] at hz2
        obtain ⟨y, _, rfl⟩ := List.mem_map.mp hz2
        rw [sub_self, zero_div]
    have hmem : PA.calculate_max_drawdown rets ∈ PA.drawdown rets := by
      apply listMinD_mem
      rw [hdd]
      exact List.cons_ne_nil _ _
    exact hall _ hmem

/-- Witness for C7 amended at a concrete series. -/
theorem C7_amended_witness :
    (([1 / 2, -1 / 10] : List ℚ) ≠ []) ∧
    (∀ r ∈ ([1 / 2, -1 / 10] : List ℚ), -1 < r) ∧
    PA.calculate_max_drawdown ([1 / 2, -1 / 10] : List ℚ) ≤ 0 := by
  have hne : ([1 / 2, -1 / 10] : List ℚ) ≠ [] := by simp
  have hr : ∀ r ∈ ([1 / 2, -1 / 10] : List ℚ), -1 < r := by
    intro r hrr
    rcases List.mem_cons.mp hrr with rfl | hrr2
    · norm_num
    · rcases List.mem_cons.mp hrr2 with rfl | hrr3
      · norm_num
      · simp at hrr3
  exact ⟨hne, hr, (C7_amended ([1 / 2, -1 / 10] : List ℚ) hne hr).1⟩

/-! Euler risk-decomposition lemmas. -/

/-- Exchanging a list sum with a finite sum. -/
theorem list_sum_map_sum {β ι M : Type} [AddCommMonoid M] (l : List β)
    (s : Finset ι) (f : β → ι → M) :
    (l.map (fun x => ∑ i ∈ s, f x i)).sum =
      ∑ i ∈ s, (l.map (fun x => f x i)).sum := by
  induction l with
  | nil => simp
  | cons a t ih => simp [ih, Finset.sum_add_distrib]

/-- The mean of the weighted portfolio-return series is the weighted sum of
the per-asset column means. -/
theorem portfolio_returns_mean {k : ℕ} (R : List (Fin k → ℝ)) (w : Fin k → ℝ) :
    listMean (PA.portfolio_returns R w) = ∑ i : Fin k, colMean R i * w i := by
  simp only [listMean, PA.portfolio_returns, colMean, List.length_map]
  rw [list_sum_map_sum, Finset.sum_div]
  apply Finset.sum_congr rfl
  intro i _
  rw [List.sum_map_mul_right, mul_div_right_comm]

/-- Bilinearity of the sample variance: the sample variance of the weighted
portfolio-return series is the quadratic form of the sample covariance
matrix, `w ᵀ Cov w`. -/
theorem portfolio_variance_eq {k : ℕ} (R : List (Fin k → ℝ)) (w : Fin k → ℝ) :
    sampleVar (PA.portfolio_returns R w) =
      PA.calculate_portfolio_variance R w := by
  have hfun : (fun x : ℝ => (x - ∑ i : Fin k, colMean R i * w i) ^ 2) ∘
      (fun r : Fin k → ℝ => ∑ i : Fin k, r i * w i) =
      fun r : Fin k → ℝ => ∑ i : Fin k, ∑ j : Fin k,
        ((r i - colMean R i) * (r j - colMean R j)) * (w i * w j) := by
    funext r
    simp only [Function.comp_apply]
    rw [← Finset.sum_sub_distrib]
    have hterm : ∀ i ∈ (Finset.univ : Finset (Fin k)),
        r i * w i - colMean R i * w i = (r i - colMean R i) * w i := by
      intro i _
      ring
    rw [Finset.sum_congr rfl hterm, pow_two, Finset.sum_mul_sum]
    apply Finset.sum_congr rfl
    intro i _
    apply Finset.sum_congr rfl
    intro j _
    ring
  unfold sampleVar
  rw [portfolio_returns_mean]
  rw [show PA.portfolio_returns R w =
    R.map (fun r : Fin k → ℝ => ∑ i : Fin k, r i * w i) from rfl]
  rw [List.length_map, List.map_map, hfun]
  rw [list_sum_map_sum, Finset.sum_div]
  unfold PA.calculate_portfolio_variance
  apply Finset.sum_congr rfl
  intro i _
  rw [list_sum_map_sum, Finset.sum_div, Finset.mul_sum]
  apply Finset.sum_congr rfl
  intro j _
  rw [List.sum_map_mul_right]
  unfold sampleCov
  ring

/-- The sample variance is never negative. -/
theorem sampleVar_nonneg (xs : List ℝ) : 0 ≤ sampleVar xs := by
  unfold sampleVar
  rcases xs with _ | ⟨a, t⟩
  · simp
  · apply div_nonneg
    · apply List.sum_nonneg
      intro x hx
      obtain ⟨y, _, rfl⟩ := List.mem_map.mp hx
      positivity
    · simp only [List.length_cons]
      push_cast
      linarith [Nat.cast_nonneg (α := ℝ) t.length]

/-- C4 amended: when `calculate_risk_contributions` succeeds (nonzero
portfolio volatility), the per-asset contributions sum exactly to the
portfolio's **daily** volatility — the sample standard deviation of the
daily portfolio-return series — which is the annualized volatility divided
by `sqrt 252`, not the annualized volatility itself. -/
theorem C4_amended {k : ℕ} (R : List (Fin k → ℝ)) (w : Fin k → ℝ)
    (c : Fin k → ℝ) (hc : PA.calculate_risk_contributions R w = some c) :
    (∑ i : Fin k, c i) = PA.sampleStd (PA.portfolio_returns R w) ∧
    PA.annualized_volatility (PA.portfolio_returns R w) =
      (∑ i : Fin k, c i) * Real.sqrt 252 := by
  unfold PA.calculate_risk_contributions at hc
  split at hc
  · cases hc
  · rename_i hs
    have hc2 := Option.some.inj hc
    subst hc2
    have hpv0 : 0 ≤ PA.calculate_portfolio_variance R w := by
      rw [← portfolio_variance_eq]
      exact sampleVar_nonneg _
    have key : (∑ i : Fin k, w i * (∑ j : Fin k, sampleCov R i j * w j) /
        Real.sqrt (PA.calculate_portfolio_variance R w)) =
        Real.sqrt (PA.calculate_portfolio_variance R w) := by
      rw [← Finset.sum_div]
      rw [show (∑ i : Fin k, w i * ∑ j : Fin k, sampleCov R i j * w j) =
        PA.calculate_portfolio_variance R w from rfl]
      rw [div_eq_iff hs]
      exact (Real.mul_self_sqrt hpv0).symm
    constructor
    · show (∑ i : Fin k, w i * (∑ j : Fin k, sampleCov R i j * w j) /
          Real.sqrt (PA.calculate_portfolio_variance R w)) =
        PA.sampleStd (PA.portfolio_returns R w)
      rw [key]
      unfold PA.sampleStd
      rw [portfolio_variance_eq]
    · show PA.annualized_volatility (PA.portfolio_returns R w) =
        (∑ i : Fin k, w i * (∑ j : Fin k, sampleCov R i j * w j) /
          Real.sqrt (PA.calculate_portfolio_variance R w)) * Real.sqrt 252
      rw [key]
      unfold PA.annualized_volatility PA.sampleStd
      rw [portfolio_variance_eq]

/-- The concrete portfolio-return series. -/
theorem retW_portfolio : PA.portfolio_returns retW wUnit = [-1, 0, 1] := by
  simp [PA.portfolio_returns, retW, wUnit, Fin.sum_univ_one]

/-- Sample variance of the concrete series. -/
theorem retW_sampleVar : sampleVar ([-1, 0, 1] : List ℝ) = 1 := by
  norm_num [sampleVar, listMean]

/-- The concrete 1×1 sample covariance. -/
theorem retW_cov : sampleCov retW (0 : Fin 1) (0 : Fin 1) = 1 := by
  norm_num [sampleCov, colMean, listMean, retW]

/-- The concrete portfolio variance. -/
theorem retW_pv : PA.calculate_portfolio_variance retW wUnit = 1 := by
  simp [PA.calculate_portfolio_variance, Fin.sum_univ_one, wUnit, retW_cov]

/-- The concrete risk contributions. -/
theorem retW_contrib :
    PA.calculate_risk_contributions retW wUnit = some cUnit := by
  unfold PA.calculate_risk_contributions
  rw [retW_pv, Real.sqrt_one, if_neg one_ne_zero]
  congr 1
  funext i
  have hi : i = 0 := Subsingleton.elim i 0
  subst hi
  simp [Fin.sum_univ_one, retW_cov, wUnit, cUnit]

/-- The concrete annualized volatility. -/
theorem retW_vol :
    PA.annualized_volatility (PA.portfolio_returns retW wUnit) =
      Real.sqrt 252 := by
  unfold PA.annualized_volatility PA.sampleStd
  rw [retW_portfolio, retW_sampleVar, Real.sqrt_one, one_mul]

/-- Numeric gap used to defeat any floating-point tolerance. -/
theorem sqrt252_large : (1 : ℝ) + 14 < Real.sqrt 252 := by
  have h : (15 : ℝ) < Real.sqrt 252 := by
    rw [Real.lt_sqrt (by norm_num : (0 : ℝ) ≤ 15)]
    norm_num
  linarith

/-- C4 counterexample: at the one-asset returns table `[-1, 0, 1]` with unit
weight, the risk contributions sum to `1` (the daily volatility), while the
annualized volatility is `sqrt 252 > 15` — so the claimed identity fails by a
margin far beyond floating-point tolerance. -/
theorem C4_counterexample :
    PA.calculate_risk_contributions retW wUnit = some cUnit ∧
    (∑ i : Fin 1, cUnit i) = 1 ∧
    PA.annualized_volatility (PA.portfolio_returns retW wUnit) =
      Real.sqrt 252 ∧
    (∑ i : Fin 1, cUnit i) ≠
      PA.annualized_volatility (PA.portfolio_returns retW wUnit) ∧
    (1 : ℝ) + 14 < Real.sqrt 252 := by
  have hsum : (∑ i : Fin 1, cUnit i) = 1 := by
    simp [Fin.sum_univ_one, cUnit]
  refine ⟨retW_contrib, hsum, retW_vol, ?_, sqrt252_large⟩
  rw [hsum, retW_vol]
  intro h
  have := sqrt252_large
  rw [← h] at this
  norm_num at this

/-- Witness for C4 amended at the concrete table. -/
theorem C4_amended_witness :
    PA.calculate_risk_contributions retW wUnit = some cUnit ∧
    (∑ i : Fin 1, cUnit i) = PA.sampleStd (PA.portfolio_returns retW wUnit) :=
  ⟨retW_contrib, (C4_amended retW wUnit cUnit retW_contrib).1⟩

end Pynance
